import Mathlib

/-!
Verification of the tatatext-helper program (main.go): a shallow embedding
of its pure logic and a small-step model of its stateful parts, with
theorems settling the specification claims.

Go strings are modelled as `List Char` (the sequence of runes a `for range`
loop yields) when rune-level processing is at stake, and as `List Nat`
(UTF-8 bytes) where the Go code manipulates raw bytes (`result[:80]`).
-/

/-! ## sanitizeFilename (main.go lines 297-312) -/

/-- The reserved filename characters replaced by `sanitizeFilename`:
`/ \ : * ? " < > |`. -/
def reservedChar (c : Char) : Bool :=
  c = '/' || c = '\\' || c = ':' || c = '*' || c = '?' || c = '"' ||
  c = '<' || c = '>' || c = '|'

/-- The rune loop of `sanitizeFilename`: each reserved character becomes
an underscore, every other rune is written back unchanged. -/
def replaceReserved (s : List Char) : List Char :=
  s.map (fun c => if reservedChar c then '_' else c)

/-- UTF-8 encoding of one unicode scalar value, as Go's `WriteRune`
produces it. -/
def utf8EncodeChar (c : Char) : List Nat :=
  if c.toNat < 0x80 then [c.toNat]
  else if c.toNat < 0x800 then [0xC0 + c.toNat / 64, 0x80 + c.toNat % 64]
  else if c.toNat < 0x10000 then
    [0xE0 + c.toNat / 4096, 0x80 + c.toNat / 64 % 64, 0x80 + c.toNat % 64]
  else
    [0xF0 + c.toNat / 262144, 0x80 + c.toNat / 4096 % 64,
     0x80 + c.toNat / 64 % 64, 0x80 + c.toNat % 64]

/-- The UTF-8 byte string of a rune sequence (what `strings.Builder.String`
holds after the loop). -/
def utf8Bytes (s : List Char) : List Nat :=
  (s.map utf8EncodeChar).flatten

/-- `sanitizeFilename` from main.go: replace the reserved runes, then, since
Go's `len`/slicing count bytes, truncate the UTF-8 byte string to 80 bytes
when it is longer. -/
def sanitizeFilename (s : List Char) : List Nat :=
  let result := utf8Bytes (replaceReserved s)
  if 80 < result.length then result.take 80 else result

example : sanitizeFilename "a:b".toList = utf8Bytes "a_b".toList := by decide

example : sanitizeFilename "ab".toList = [97, 98] := by decide

/-! ## UTF-8 decoding (Go `for range` over a string / `utf8.DecodeRune`)

A Go string is a byte sequence; ranging over it decodes maximal valid UTF-8
sequences and yields U+FFFD for each invalid byte, advancing one byte.  The
accept ranges below are exactly `utf8.acceptRanges`. -/

theorem char_toNat_valid (c : Char) :
    c.toNat < 0xD800 ∨ (0xDFFF < c.toNat ∧ c.toNat < 0x110000) := by
  rcases c.valid with h | ⟨h1, h2⟩
  · exact Or.inl (UInt32.toNat_lt_of_lt (by decide) h)
  · exact Or.inr ⟨UInt32.lt_toNat_of_lt (by decide) h1,
      UInt32.toNat_lt_of_lt (by decide) h2⟩

theorem char_toNat_inj {a b : Char} (h : a.toNat = b.toNat) : a = b := by
  apply Char.ext
  apply UInt32.eq_of_toBitVec_eq
  apply BitVec.eq_of_toNat_eq
  exact h

/-- Lower bound for the first continuation byte, per `utf8.acceptRanges`. -/
def utf8Lo (b0 : Nat) : Nat :=
  if b0 = 0xE0 then 0xA0 else if b0 = 0xF0 then 0x90 else 0x80

/-- Upper bound for the first continuation byte, per `utf8.acceptRanges`. -/
def utf8Hi (b0 : Nat) : Nat :=
  if b0 = 0xED then 0x9F else if b0 = 0xF4 then 0x8F else 0xBF

/-- The bytes after lead byte `b0` start with a valid continuation of a
two-byte sequence. -/
def seq2 (b0 : Nat) (rest : List Nat) : Prop :=
  0xC2 ≤ b0 ∧ b0 ≤ 0xDF ∧ 1 ≤ rest.length ∧
  utf8Lo b0 ≤ rest.getD 0 0 ∧ rest.getD 0 0 ≤ utf8Hi b0

/-- The bytes after lead byte `b0` start with valid continuations of a
three-byte sequence. -/
def seq3 (b0 : Nat) (rest : List Nat) : Prop :=
  0xE0 ≤ b0 ∧ b0 ≤ 0xEF ∧ 2 ≤ rest.length ∧
  utf8Lo b0 ≤ rest.getD 0 0 ∧ rest.getD 0 0 ≤ utf8Hi b0 ∧
  0x80 ≤ rest.getD 1 0 ∧ rest.getD 1 0 ≤ 0xBF

/-- The bytes after lead byte `b0` start with valid continuations of a
four-byte sequence. -/
def seq4 (b0 : Nat) (rest : List Nat) : Prop :=
  0xF0 ≤ b0 ∧ b0 ≤ 0xF4 ∧ 3 ≤ rest.length ∧
  utf8Lo b0 ≤ rest.getD 0 0 ∧ rest.getD 0 0 ≤ utf8Hi b0 ∧
  0x80 ≤ rest.getD 1 0 ∧ rest.getD 1 0 ≤ 0xBF ∧
  0x80 ≤ rest.getD 2 0 ∧ rest.getD 2 0 ≤ 0xBF

instance (b0 : Nat) (rest : List Nat) : Decidable (seq2 b0 rest) := by
  unfold seq2; infer_instance

instance (b0 : Nat) (rest : List Nat) : Decidable (seq3 b0 rest) := by
  unfold seq3; infer_instance

instance (b0 : Nat) (rest : List Nat) : Decidable (seq4 b0 rest) := by
  unfold seq4; infer_instance

/-- Fuelled decoding loop; the fuel only serves structural recursion and is
irrelevant as soon as it bounds the list length (`goDecodeF_fuel`). -/
def goDecodeF : Nat → List Nat → List Char
  | 0, _ => []
  | _ + 1, [] => []
  | fuel + 1, b0 :: rest =>
    if b0 < 0x80 then Char.ofNat b0 :: goDecodeF fuel rest
    else if seq2 b0 rest then
      Char.ofNat (b0 % 32 * 64 + rest.getD 0 0 % 64) ::
        goDecodeF fuel (rest.drop 1)
    else if seq3 b0 rest then
      Char.ofNat (b0 % 16 * 4096 + rest.getD 0 0 % 64 * 64 +
        rest.getD 1 0 % 64) :: goDecodeF fuel (rest.drop 2)
    else if seq4 b0 rest then
      Char.ofNat (b0 % 8 * 262144 + rest.getD 0 0 % 64 * 4096 +
        rest.getD 1 0 % 64 * 64 + rest.getD 2 0 % 64) ::
        goDecodeF fuel (rest.drop 3)
    else Char.ofNat 0xFFFD :: goDecodeF fuel rest

/-- Decoding of a byte string into the runes Go's `for range` yields:
valid sequences decode to their scalar value, anything else produces
U+FFFD and advances one byte (`utf8.DecodeRune` semantics). -/
def goDecode (l : List Nat) : List Char := goDecodeF l.length l

example : goDecode [0x61, 0xC3, 0xA9] = ['a', 'é'] := by decide

example : goDecode [0xC3] = [Char.ofNat 0xFFFD] := by decide

theorem goDecodeF_fuel : ∀ (f1 f2 : Nat) (l : List Nat),
    l.length ≤ f1 → l.length ≤ f2 → goDecodeF f1 l = goDecodeF f2 l := by
  intro f1
  induction f1 with
  | zero =>
    intro f2 l h1 _
    have : l = [] := List.eq_nil_of_length_eq_zero (Nat.le_zero.mp h1)
    subst this
    cases f2 <;> rfl
  | succ f ih =>
    intro f2 l h1 h2
    cases l with
    | nil => cases f2 <;> rfl
    | cons b0 rest =>
      simp only [List.length_cons] at h1 h2
      cases f2 with
      | zero => omega
      | succ f2 =>
        rw [goDecodeF, goDecodeF]
        have hr : rest.length ≤ f := by omega
        have hr2 : rest.length ≤ f2 := by omega
        have hd1 : (rest.drop 1).length ≤ f := by simp; omega
        have hd1b : (rest.drop 1).length ≤ f2 := by simp; omega
        have hd2 : (rest.drop 2).length ≤ f := by simp; omega
        have hd2b : (rest.drop 2).length ≤ f2 := by simp; omega
        have hd3 : (rest.drop 3).length ≤ f := by simp; omega
        have hd3b : (rest.drop 3).length ≤ f2 := by simp; omega
        split
        · rw [ih f2 rest hr hr2]
        · split
          · rw [ih f2 _ hd1 hd1b]
          · split
            · rw [ih f2 _ hd2 hd2b]
            · split
              · rw [ih f2 _ hd3 hd3b]
              · rw [ih f2 rest hr hr2]

/-- The natural recursion equation of `goDecode` on a nonempty byte
string. -/
theorem goDecode_cons (b0 : Nat) (rest : List Nat) :
    goDecode (b0 :: rest) =
    if b0 < 0x80 then Char.ofNat b0 :: goDecode rest
    else if seq2 b0 rest then
      Char.ofNat (b0 % 32 * 64 + rest.getD 0 0 % 64) ::
        goDecode (rest.drop 1)
    else if seq3 b0 rest then
      Char.ofNat (b0 % 16 * 4096 + rest.getD 0 0 % 64 * 64 +
        rest.getD 1 0 % 64) :: goDecode (rest.drop 2)
    else if seq4 b0 rest then
      Char.ofNat (b0 % 8 * 262144 + rest.getD 0 0 % 64 * 4096 +
        rest.getD 1 0 % 64 * 64 + rest.getD 2 0 % 64) ::
        goDecode (rest.drop 3)
    else Char.ofNat 0xFFFD :: goDecode rest := by
  unfold goDecode
  simp only [List.length_cons]
  rw [goDecodeF]
  split
  · rfl
  · split
    · rw [goDecodeF_fuel rest.length (rest.drop 1).length (rest.drop 1)
        (by simp) (le_refl _)]
    · split
      · rw [goDecodeF_fuel rest.length (rest.drop 2).length (rest.drop 2)
          (by simp) (le_refl _)]
      · split
        · rw [goDecodeF_fuel rest.length (rest.drop 3).length (rest.drop 3)
            (by simp) (le_refl _)]
        · rfl

theorem utf8Lo_other {b0 : Nat} (hA : b0 ≠ 0xE0) (hB : b0 ≠ 0xF0) :
    utf8Lo b0 = 0x80 := by
  unfold utf8Lo
  rw [if_neg hA, if_neg hB]

theorem utf8Hi_other {b0 : Nat} (hA : b0 ≠ 0xED) (hB : b0 ≠ 0xF4) :
    utf8Hi b0 = 0xBF := by
  unfold utf8Hi
  rw [if_neg hA, if_neg hB]

/-- Decoding inverts encoding, one rune at a time. -/
theorem goDecode_encode_cons (c : Char) (bs : List Nat) :
    goDecode (utf8EncodeChar c ++ bs) = c :: goDecode bs := by
  have hv := char_toNat_valid c
  have hofNat := Char.ofNat_toNat c
  by_cases h1 : c.toNat < 0x80
  · have e : utf8EncodeChar c = [c.toNat] := by
      unfold utf8EncodeChar
      rw [if_pos h1]
    rw [e, List.cons_append, List.nil_append, goDecode_cons, if_pos h1,
      hofNat]
  · by_cases h2 : c.toNat < 0x800
    · have e : utf8EncodeChar c =
          [0xC0 + c.toNat / 64, 0x80 + c.toNat % 64] := by
        unfold utf8EncodeChar
        rw [if_neg h1, if_pos h2]
      have hseq : seq2 (0xC0 + c.toNat / 64) ((0x80 + c.toNat % 64) :: bs) := by
        unfold seq2
        rw [utf8Lo_other (by omega) (by omega),
          utf8Hi_other (by omega) (by omega)]
        simp only [List.length_cons, List.getD_cons_zero]
        omega
      rw [e, List.cons_append, List.cons_append, List.nil_append,
        goDecode_cons, if_neg (by omega), if_pos hseq]
      simp only [List.getD_cons_zero, List.drop_succ_cons, List.drop_zero]
      have harith : (0xC0 + c.toNat / 64) % 32 * 64 +
          (0x80 + c.toNat % 64) % 64 = c.toNat := by omega
      rw [harith, hofNat]
    · by_cases h3 : c.toNat < 0x10000
      · have e : utf8EncodeChar c = [0xE0 + c.toNat / 4096,
            0x80 + c.toNat / 64 % 64, 0x80 + c.toNat % 64] := by
          unfold utf8EncodeChar
          rw [if_neg h1, if_neg (by omega), if_pos h3]
        have hb1 : utf8Lo (0xE0 + c.toNat / 4096) ≤ 0x80 + c.toNat / 64 % 64 ∧
            0x80 + c.toNat / 64 % 64 ≤ utf8Hi (0xE0 + c.toNat / 4096) := by
          by_cases hE0 : c.toNat / 4096 = 0
          · have hlo : utf8Lo (0xE0 + c.toNat / 4096) = 0xA0 := by
              unfold utf8Lo
              rw [if_pos (by omega)]
            rw [hlo, utf8Hi_other (by omega) (by omega)]
            omega
          · by_cases hED : c.toNat / 4096 = 13
            · have hhi : utf8Hi (0xE0 + c.toNat / 4096) = 0x9F := by
                unfold utf8Hi
                rw [if_pos (by omega)]
              rw [hhi, utf8Lo_other (by omega) (by omega)]
              omega
            · rw [utf8Lo_other (by omega) (by omega),
                utf8Hi_other (by omega) (by omega)]
              omega
        have hseq : seq3 (0xE0 + c.toNat / 4096)
            ((0x80 + c.toNat / 64 % 64) :: (0x80 + c.toNat % 64) :: bs) := by
          unfold seq3
          simp only [List.length_cons, List.getD_cons_zero,
            List.getD_cons_succ] at *
          refine ⟨by omega, by omega, by omega, hb1.1, hb1.2, by omega,
            by omega⟩
        have hnot2 : ¬ seq2 (0xE0 + c.toNat / 4096)
            ((0x80 + c.toNat / 64 % 64) :: (0x80 + c.toNat % 64) :: bs) := by
          unfold seq2
          omega
        rw [e, List.cons_append, List.cons_append, List.cons_append,
          List.nil_append, goDecode_cons, if_neg (by omega), if_neg hnot2,
          if_pos hseq]
        simp only [List.getD_cons_zero, List.getD_cons_succ,
          List.drop_succ_cons, List.drop_zero]
        have harith : (0xE0 + c.toNat / 4096) % 16 * 4096 +
            (0x80 + c.toNat / 64 % 64) % 64 * 64 +
            (0x80 + c.toNat % 64) % 64 = c.toNat := by omega
        rw [harith, hofNat]
      · have h4 : c.toNat < 0x110000 := by omega
        have e : utf8EncodeChar c = [0xF0 + c.toNat / 262144,
            0x80 + c.toNat / 4096 % 64, 0x80 + c.toNat / 64 % 64,
            0x80 + c.toNat % 64] := by
          unfold utf8EncodeChar
          rw [if_neg h1, if_neg (by omega), if_neg (by omega)]
        have hb1 : utf8Lo (0xF0 + c.toNat / 262144) ≤
            0x80 + c.toNat / 4096 % 64 ∧
            0x80 + c.toNat / 4096 % 64 ≤ utf8Hi (0xF0 + c.toNat / 262144) := by
          by_cases hF0 : c.toNat / 262144 = 0
          · have hlo : utf8Lo (0xF0 + c.toNat / 262144) = 0x90 := by
              unfold utf8Lo
              rw [if_neg (by omega), if_pos (by omega)]
            rw [hlo, utf8Hi_other (by omega) (by omega)]
            omega
          · by_cases hF4 : c.toNat / 262144 = 4
            · have hhi : utf8Hi (0xF0 + c.toNat / 262144) = 0x8F := by
                unfold utf8Hi
                rw [if_neg (by omega), if_pos (by omega)]
              rw [hhi, utf8Lo_other (by omega) (by omega)]
              omega
            · rw [utf8Lo_other (by omega) (by omega),
                utf8Hi_other (by omega) (by omega)]
              omega
        have hseq : seq4 (0xF0 + c.toNat / 262144)
            ((0x80 + c.toNat / 4096 % 64) :: (0x80 + c.toNat / 64 % 64) ::
              (0x80 + c.toNat % 64) :: bs) := by
          unfold seq4
          simp only [List.length_cons, List.getD_cons_zero,
            List.getD_cons_succ] at *
          refine ⟨by omega, by omega, by omega, hb1.1, hb1.2, by omega,
            by omega, by omega, by omega⟩
        have hnot2 : ¬ seq2 (0xF0 + c.toNat / 262144)
            ((0x80 + c.toNat / 4096 % 64) :: (0x80 + c.toNat / 64 % 64) ::
              (0x80 + c.toNat % 64) :: bs) := by
          unfold seq2
          omega
        have hnot3 : ¬ seq3 (0xF0 + c.toNat / 262144)
            ((0x80 + c.toNat / 4096 % 64) :: (0x80 + c.toNat / 64 % 64) ::
              (0x80 + c.toNat % 64) :: bs) := by
          unfold seq3
          omega
        rw [e, List.cons_append, List.cons_append, List.cons_append,
          List.cons_append, List.nil_append, goDecode_cons,
          if_neg (by omega), if_neg hnot2, if_neg hnot3, if_pos hseq]
        simp only [List.getD_cons_zero, List.getD_cons_succ,
          List.drop_succ_cons, List.drop_zero]
        have harith : (0xF0 + c.toNat / 262144) % 8 * 262144 +
            (0x80 + c.toNat / 4096 % 64) % 64 * 4096 +
            (0x80 + c.toNat / 64 % 64) % 64 * 64 +
            (0x80 + c.toNat % 64) % 64 = c.toNat := by omega
        rw [harith, hofNat]

/-- Decoding inverts `utf8Bytes` on every rune sequence. -/
theorem goDecode_utf8Bytes (s : List Char) : goDecode (utf8Bytes s) = s := by
  induction s with
  | nil => rfl
  | cons c cs ih =>
    simp only [utf8Bytes, List.map_cons, List.flatten_cons] at *
    rw [goDecode_encode_cons, ih]

theorem goDecodeF_length (f : Nat) :
    ∀ l : List Nat, (goDecodeF f l).length ≤ l.length := by
  induction f with
  | zero =>
    intro l
    simp [goDecodeF]
  | succ f ih =>
    intro l
    cases l with
    | nil => simp [goDecodeF]
    | cons b0 rest =>
      rw [goDecodeF]
      have h0 := ih rest
      have h1 := ih (rest.drop 1)
      have h2 := ih (rest.drop 2)
      have h3 := ih (rest.drop 3)
      simp only [List.length_drop] at h1 h2 h3
      split
      · simp only [List.length_cons]
        omega
      · split
        · simp only [List.length_cons]
          omega
        · split
          · simp only [List.length_cons]
            omega
          · split
            · simp only [List.length_cons]
              omega
            · simp only [List.length_cons]
              omega

/-- A rune never decodes from fewer bytes than it occupies: the decoded
rune count is bounded by the byte count. -/
theorem goDecode_length (l : List Nat) : (goDecode l).length ≤ l.length :=
  goDecodeF_length _ _

/-! ## Theorems about sanitizeFilename (claims C4 and C10) -/

theorem utf8EncodeChar_ascii_mem {c : Char} {b : Nat}
    (hb : b ∈ utf8EncodeChar c) (hlt : b < 0x80) : b = c.toNat := by
  unfold utf8EncodeChar at hb
  split at hb
  · simpa using hb
  · split at hb
    · simp only [List.mem_cons, List.not_mem_nil, or_false] at hb
      omega
    · split at hb
      · simp only [List.mem_cons, List.not_mem_nil, or_false] at hb
        omega
      · simp only [List.mem_cons, List.not_mem_nil, or_false] at hb
        omega

theorem reservedChar_lt {c : Char} (h : reservedChar c = true) :
    c.toNat < 0x80 := by
  simp only [reservedChar, Bool.or_eq_true, decide_eq_true_eq] at h
  rcases h with ((((((((h | h) | h) | h) | h) | h) | h) | h) | h) <;>
    subst h <;> decide

theorem replaceReserved_not_reserved {s : List Char} {c : Char}
    (hc : c ∈ replaceReserved s) : reservedChar c = false := by
  simp only [replaceReserved, List.mem_map] at hc
  obtain ⟨a, _, ha⟩ := hc
  by_cases h : reservedChar a = true
  · rw [if_pos h] at ha
    rw [← ha]
    decide
  · rw [if_neg h] at ha
    rw [← ha]
    simpa using h

theorem replaceReserved_eq_self {s : List Char}
    (h : ∀ c ∈ s, reservedChar c = false) : replaceReserved s = s := by
  induction s with
  | nil => rfl
  | cons c cs ih =>
    simp only [replaceReserved, List.map_cons]
    rw [if_neg (by simp [h c (List.mem_cons_self c cs)])]
    have := ih (fun c hc => h c (List.mem_cons_of_mem _ hc))
    simp only [replaceReserved] at this
    rw [this]

theorem replaceReserved_idem (s : List Char) :
    replaceReserved (replaceReserved s) = replaceReserved s :=
  replaceReserved_eq_self fun _ hc => replaceReserved_not_reserved hc

/-- C4 (amended to Go's byte semantics): the output of `sanitizeFilename`
never contains a reserved character — neither as a byte nor as a decoded
rune — and is at most 80 bytes, hence at most 80 runes, long; an input free
of reserved characters whose UTF-8 form is at most 80 bytes comes back
unchanged. -/
theorem sanitizeFilename_spec (s : List Char) :
    (∀ c : Char, reservedChar c = true → c.toNat ∉ sanitizeFilename s) ∧
    (sanitizeFilename s).length ≤ 80 ∧
    (goDecode (sanitizeFilename s)).length ≤ 80 ∧
    ((∀ c ∈ s, reservedChar c = false) → (utf8Bytes s).length ≤ 80 →
      sanitizeFilename s = utf8Bytes s) := by
  have hlen : (sanitizeFilename s).length ≤ 80 := by
    simp only [sanitizeFilename]
    split
    · simp
    · omega
  refine ⟨?_, hlen, le_trans (goDecode_length _) hlen, ?_⟩
  · intro c hc hmem
    have hsub : c.toNat ∈ utf8Bytes (replaceReserved s) := by
      simp only [sanitizeFilename] at hmem
      split at hmem
      · exact List.mem_of_mem_take hmem
      · exact hmem
    simp only [utf8Bytes, List.mem_flatten, List.mem_map] at hsub
    obtain ⟨l, ⟨a, ha, hl⟩, hbl⟩ := hsub
    rw [← hl] at hbl
    have := utf8EncodeChar_ascii_mem hbl (reservedChar_lt hc)
    have hac : a = c := char_toNat_inj this.symm
    rw [hac] at ha
    have := replaceReserved_not_reserved ha
    rw [hc] at this
    simp at this
  · intro hsafe hlen80
    simp only [sanitizeFilename, replaceReserved_eq_self hsafe]
    rw [if_neg (by omega)]

/-- Witness: `sanitizeFilename` applied to concrete safe and unsafe
inputs, through `sanitizeFilename_spec`. -/
theorem sanitizeFilename_spec_witness :
    sanitizeFilename "abc".toList = utf8Bytes "abc".toList ∧
    (':').toNat ∉ sanitizeFilename "a:b".toList :=
  ⟨(sanitizeFilename_spec "abc".toList).2.2.2 (by decide) (by decide),
   (sanitizeFilename_spec "a:b".toList).1 ':' (by decide)⟩

/-- C4 counterexample: 41 copies of the two-byte rune `é` contain no
reserved character and are fewer than 80 characters, yet `sanitizeFilename`
does not return the string unchanged — Go truncates at 80 *bytes*, not 80
characters. -/
theorem sanitizeFilename_counterexample :
    (∀ c ∈ List.replicate 41 'é', reservedChar c = false) ∧
    (List.replicate 41 'é').length < 80 ∧
    sanitizeFilename (List.replicate 41 'é') ≠
      utf8Bytes (List.replicate 41 'é') := by
  decide

/-- C10: on inputs whose sanitized form needs no truncation,
`sanitizeFilename` is idempotent: re-sanitizing the (decoded) result
changes nothing, because the underscore replacement character is itself
never replaced. -/
theorem sanitizeFilename_idempotent (s : List Char)
    (h : (utf8Bytes (replaceReserved s)).length ≤ 80) :
    sanitizeFilename (goDecode (sanitizeFilename s)) = sanitizeFilename s := by
  have e1 : sanitizeFilename s = utf8Bytes (replaceReserved s) := by
    simp only [sanitizeFilename]
    rw [if_neg (by omega)]
  rw [e1, goDecode_utf8Bytes]
  simp only [sanitizeFilename, replaceReserved_idem]
  rw [if_neg (by omega)]

/-- Witness for C10 at a concrete input containing a reserved character. -/
theorem sanitizeFilename_idempotent_witness :
    sanitizeFilename (goDecode (sanitizeFilename "My:Video".toList)) =
      sanitizeFilename "My:Video".toList :=
  sanitizeFilename_idempotent "My:Video".toList (by decide)

/-- The rune loop never changes the UTF-8 length (reserved characters and
underscore are all one byte), so "byte length at most 80" may equivalently
be checked on the input — the "in particular" part of C10. -/
theorem utf8Bytes_replaceReserved_length (s : List Char) :
    (utf8Bytes (replaceReserved s)).length = (utf8Bytes s).length := by
  induction s with
  | nil => rfl
  | cons c cs ih =>
    simp only [utf8Bytes, replaceReserved, List.map_cons, List.flatten_cons,
      List.length_append] at *
    have henc : (utf8EncodeChar (if reservedChar c then '_' else c)).length =
        (utf8EncodeChar c).length := by
      by_cases h : reservedChar c = true
      · rw [if_pos h]
        have hlt := reservedChar_lt h
        have e : utf8EncodeChar c = [c.toNat] := by
          unfold utf8EncodeChar
          rw [if_pos hlt]
        rw [e]
        rfl
      · rw [if_neg h]
    omega

/-! ## The /audio handler's output parsing (main.go lines 93-103) -/

/-- Go's `unicode.IsSpace`: the Unicode White_Space property. -/
def isGoSpace (c : Char) : Bool :=
  c.toNat = 9 || c.toNat = 10 || c.toNat = 11 || c.toNat = 12 ||
  c.toNat = 13 || c.toNat = 32 || c.toNat = 0x85 || c.toNat = 0xA0 ||
  c.toNat = 0x1680 ||
  (decide (0x2000 ≤ c.toNat) && decide (c.toNat ≤ 0x200A)) ||
  c.toNat = 0x2028 || c.toNat = 0x2029 || c.toNat = 0x202F ||
  c.toNat = 0x205F || c.toNat = 0x3000

/-- `strings.TrimSpace`: remove leading and trailing white space. -/
def trimSpace (s : List Char) : List Char :=
  ((s.dropWhile isGoSpace).reverse.dropWhile isGoSpace).reverse

/-- `strings.SplitN(s, "\n", 2)`: at most two fields, cut at the first
newline. -/
def splitN2 (s : List Char) : List (List Char) :=
  if s.contains '\n' then
    [s.takeWhile (fun c => c != '\n'),
     (s.dropWhile (fun c => c != '\n')).drop 1]
  else [s]

example : splitN2 "a\nb\nc".toList = ["a".toList, "b\nc".toList] := by decide

example : splitN2 [] = [[]] := by decide

/-- Either the audio URL the handler proceeds with, or the error message of
the JSON error response it sends instead. -/
inductive AudioResult where
  | failure (msg : List Char)
  | success (url : List Char)
deriving DecidableEq

/-- What the /audio handler computes from the subprocess output: the title
it would use, and either the audio URL it proceeds with or the error
message it responds with. -/
structure AudioParse where
  title : List Char
  result : AudioResult
deriving DecidableEq

/-- Lines 93-103 of main.go: split the trimmed output at the first newline
into at most two fields, default the title to "YouTube Video" when the
first field is empty, fail with "no audio URL found" when the second field
is missing or empty, and trim the second field into the audio URL. -/
def parseAudioOutput (out : List Char) : AudioParse :=
  let lines := splitN2 (trimSpace out)
  let title :=
    if 1 ≤ lines.length ∧ lines.getD 0 [] ≠ [] then lines.getD 0 []
    else "YouTube Video".toList
  if lines.length < 2 ∨ lines.getD 1 [] = [] then
    ⟨title, AudioResult.failure "no audio URL found".toList⟩
  else
    ⟨title, AudioResult.success (trimSpace (lines.getD 1 []))⟩

example : parseAudioOutput "T\nhttp://u".toList =
    ⟨"T".toList, AudioResult.success "http://u".toList⟩ := by decide

/-- C3 (amended): the two concrete scenarios hold as specified, but the
failure condition is "the trimmed output contains no newline" (second field
absent): an empty second *line* in the raw output does not by itself make
the handler fail (see `parseAudioOutput_counterexample`). -/
theorem parseAudioOutput_spec :
    parseAudioOutput "My Title\nhttps://example/media.m4a".toList =
      ⟨"My Title".toList,
       AudioResult.success "https://example/media.m4a".toList⟩ ∧
    (∀ out : List Char, ¬ (trimSpace out).contains '\n' = true →
      (parseAudioOutput out).result =
        AudioResult.failure "no audio URL found".toList) ∧
    parseAudioOutput [] =
      ⟨"YouTube Video".toList,
       AudioResult.failure "no audio URL found".toList⟩ := by
  refine ⟨by decide, ?_, by decide⟩
  intro out h
  simp only [parseAudioOutput, splitN2]
  rw [if_neg h]
  simp

/-- Witness: a one-line output makes the handler fail with
"no audio URL found". -/
theorem parseAudioOutput_spec_witness :
    (parseAudioOutput "Only A Title".toList).result =
      AudioResult.failure "no audio URL found".toList :=
  parseAudioOutput_spec.2.1 "Only A Title".toList (by decide)

/-- C3 counterexample: this subprocess output has an empty second line, yet
the handler does not fail — it splits the trimmed output at the *first*
newline only, so the URL on the third line is found (after trimming the
leading newline). -/
theorem parseAudioOutput_counterexample :
    (List.splitOn '\n'
        "My Title\n\nhttps://example/media.m4a".toList).getD 1 ['x'] = [] ∧
    (parseAudioOutput "My Title\n\nhttps://example/media.m4a".toList).result
      = AudioResult.success "https://example/media.m4a".toList := by
  decide

/-! ## /audio response headers (main.go lines 117-133) -/

/-- `strings.Contains`: `pat` occurs as a contiguous substring of `s`. -/
def containsSub (s pat : List Char) : Bool :=
  s.tails.any (fun t => pat.isPrefixOf t)

example : containsSub "audio/webm; codecs".toList "webm".toList = true := by
  decide

example : containsSub "audio/mp4".toList "ogg".toList = false := by decide

/-- The response headers the /audio handler sets on success (lines 117-133;
header values are byte strings on the wire, so the Content-Disposition
carries the truncated `sanitizeFilename` bytes verbatim). -/
structure AudioHeaders where
  contentType : List Char
  contentDisposition : List Nat
  xVideoTitle : List Char
  xVideoExtension : List Char
deriving DecidableEq

/-- Lines 117-133 of main.go: default an empty upstream Content-Type to
"audio/mp4", pick extension "webm" when the (defaulted) content type
mentions "webm" or "ogg" and "m4a" otherwise, and assemble the headers. -/
def buildAudioHeaders (title ctHeader : List Char) : AudioHeaders :=
  let ct := if ctHeader = [] then "audio/mp4".toList else ctHeader
  let ext :=
    if containsSub ct "webm".toList || containsSub ct "ogg".toList then
      "webm".toList
    else "m4a".toList
  { contentType := ct
    contentDisposition := utf8Bytes "attachment; filename=\"".toList ++
      sanitizeFilename title ++ utf8Bytes ('.' :: ext) ++ [0x22]
    xVideoTitle := title
    xVideoExtension := ext }

/-- Modelled from the spec's wording of the extension rule, applied to the
upstream header value itself: "webm when the upstream type mentions webm or
ogg; otherwise m4a". -/
def specExt (ctHeader : List Char) : List Char :=
  if containsSub ctHeader "webm".toList || containsSub ctHeader "ogg".toList
  then "webm".toList
  else "m4a".toList

/-- C7: for every upstream Content-Type value the derived extension follows
the contains-webm-or-ogg rule (the defaulting of an empty value to
"audio/mp4" makes no difference, as that type mentions neither), and the
same extension is embedded in the Content-Disposition filename and in the
X-Video-Extension header. -/
theorem buildAudioHeaders_ext (title ctHeader : List Char) :
    (buildAudioHeaders title ctHeader).xVideoExtension = specExt ctHeader ∧
    (buildAudioHeaders title ctHeader).contentDisposition =
      utf8Bytes "attachment; filename=\"".toList ++ sanitizeFilename title ++
      utf8Bytes ('.' :: specExt ctHeader) ++ [0x22] := by
  simp only [buildAudioHeaders, specExt]
  by_cases h : ctHeader = []
  · subst h
    rw [if_pos rfl,
      show containsSub "audio/mp4".toList "webm".toList = false from by
        decide,
      show containsSub "audio/mp4".toList "ogg".toList = false from by
        decide,
      show containsSub ([] : List Char) "webm".toList = false from by decide,
      show containsSub ([] : List Char) "ogg".toList = false from by decide]
    exact ⟨rfl, rfl⟩
  · rw [if_neg h]
    exact ⟨rfl, rfl⟩

/-! ## Release checking and updating (main.go lines 189-295) -/

instance {ε α : Type} [DecidableEq ε] [DecidableEq α] :
    DecidableEq (Except ε α)
  | .error x, .error y =>
    if h : x = y then .isTrue (by rw [h])
    else .isFalse (fun hc => h (by injection hc))
  | .error _, .ok _ => .isFalse (fun hc => Except.noConfusion hc)
  | .ok _, .error _ => .isFalse (fun hc => Except.noConfusion hc)
  | .ok x, .ok y =>
    if h : x = y then .isTrue (by rw [h])
    else .isFalse (fun hc => h (by injection hc))

/-- One asset of the decoded release JSON: `name` and
`browser_download_url` (lines 239-242). -/
structure Asset where
  name : List Char
  browserDownloadURL : List Char
deriving DecidableEq

/-- The fields of the release JSON the program decodes (lines 237-243). -/
structure Release where
  tagName : List Char
  assets : List Asset
deriving DecidableEq

/-- Outcome of the HTTP GET and JSON decode of the release feed: transport
error, malformed metadata, or a decoded release listing. -/
inductive FetchResult where
  | netErr
  | parseErr
  | ok (release : Release)
deriving DecidableEq

/-- The error cases `getLatestYtDlpRelease` returns. -/
inductive ReleaseErr where
  | network
  | parse
  | assetNotFound
deriving DecidableEq

/-- The platform-specific asset name (lines 248-253): `yt-dlp.exe` on
Windows, `yt-dlp_macos` otherwise. -/
def releaseAssetName (isWindows : Bool) : List Char :=
  if isWindows then "yt-dlp.exe".toList else "yt-dlp_macos".toList

/-- `getLatestYtDlpRelease` (lines 230-261): propagate a transport or
decode failure, otherwise scan the assets for the first exact name match
and return the tag and its download URL, or fail if none matches. -/
def getLatestYtDlpRelease (fetch : FetchResult) (isWindows : Bool) :
    Except ReleaseErr (List Char × List Char) :=
  match fetch with
  | .netErr => .error .network
  | .parseErr => .error .parse
  | .ok release =>
    match release.assets.find?
        (fun a => a.name == releaseAssetName isWindows) with
    | some a => .ok (release.tagName, a.browserDownloadURL)
    | none => .error .assetNotFound

/-- Where `downloadYtDlp` stops: the streamed GET, opening the temp file,
copying the body, the final rename — or none of them (lines 274-293). -/
inductive DownloadOutcome where
  | httpErr
  | openErr
  | copyErr
  | renameErr
  | success
deriving DecidableEq

/-- The error cases `downloadYtDlp` returns. -/
inductive DownloadErr where
  | http
  | openFile
  | copy
  | rename
deriving DecidableEq

/-- `filepath.Join` of two components; for the nonempty literal components
used here it is separator concatenation, with an empty first component
yielding the second. -/
def joinPath (a b : List Char) : List Char :=
  if a = [] then b else a ++ '/' :: b

/-- The installation target path `<configDir>/tatatext-helper/<outName>`
(lines 264-271): `yt-dlp.exe` on Windows, `yt-dlp` otherwise. -/
def ytdlpOutPath (configDir : List Char) (isWindows : Bool) : List Char :=
  joinPath (joinPath configDir "tatatext-helper".toList)
    (if isWindows then "yt-dlp.exe".toList else "yt-dlp".toList)

/-- `downloadYtDlp` (lines 263-295): fail at whichever stage the
environment makes fail, otherwise the temp file is renamed onto the target
path, which is returned. -/
def downloadYtDlp (configDir : List Char) (isWindows : Bool)
    (outcome : DownloadOutcome) : Except DownloadErr (List Char) :=
  match outcome with
  | .httpErr => .error .http
  | .openErr => .error .openFile
  | .copyErr => .error .copy
  | .renameErr => .error .rename
  | .success => .ok (ytdlpOutPath configDir isWindows)

/-- Observable side effects of an update cycle, for the frame claims. -/
inductive Effect where
  | fetchReleaseFeed
  | httpGetAsset
  | writeTempFile
  | renameTempFile
deriving DecidableEq

/-- The effects `downloadYtDlp` performs up to its outcome's stage. -/
def downloadEffects : DownloadOutcome → List Effect
  | .httpErr => [.httpGetAsset]
  | .openErr => [.httpGetAsset]
  | .copyErr => [.httpGetAsset, .writeTempFile]
  | .renameErr => [.httpGetAsset, .writeTempFile]
  | .success => [.httpGetAsset, .writeTempFile, .renameTempFile]

/-- The process-wide mutable pair `(ytdlpPath, ytdlpVersion)` guarded by
`updateMu` (lines 28-32). -/
structure ProgState where
  ytdlpPath : List Char
  ytdlpVersion : List Char
deriving DecidableEq

/-- One update-cycle environment: what the release feed and the download
would deliver if performed, and what `os.UserConfigDir` yields inside
`downloadYtDlp`. -/
structure CycleEnv where
  fetch : FetchResult
  download : DownloadOutcome
  configDir : List Char
deriving DecidableEq

/-- `checkAndUpdate` (lines 199-228), with its effects: bail out on a feed
failure; do nothing when the reported version equals the current one; else
download, and on success install the new path and version. Every failure
path returns with the state unchanged. -/
def checkAndUpdate (env : CycleEnv) (isWindows : Bool) (st : ProgState) :
    ProgState × List Effect :=
  match getLatestYtDlpRelease env.fetch isWindows with
  | .error _ => (st, [.fetchReleaseFeed])
  | .ok (latestVersion, _) =>
    if st.ytdlpVersion = latestVersion then (st, [.fetchReleaseFeed])
    else
      match downloadYtDlp env.configDir isWindows env.download with
      | .error _ => (st, .fetchReleaseFeed :: downloadEffects env.download)
      | .ok newPath =>
        ({ ytdlpPath := newPath, ytdlpVersion := latestVersion },
         .fetchReleaseFeed :: downloadEffects env.download)

/-- The updater loop (lines 190-197) over a finite prefix of its ticks:
each tick runs one `checkAndUpdate` cycle, whatever the previous ticks
did. -/
def runUpdateCycles (isWindows : Bool) (envs : List CycleEnv)
    (st : ProgState) : ProgState :=
  envs.foldl (fun s e => (checkAndUpdate e isWindows s).1) st

/-- C5: `getLatestYtDlpRelease` succeeds exactly when the feed request and
decode succeeded and some asset bears exactly the platform asset name; on
success it returns the release tag together with the download URL of such
an asset, and it errors precisely on transport failure, decode failure, or
no exact-name match. -/
theorem getLatestYtDlpRelease_spec (fetch : FetchResult) (isWindows : Bool) :
    (∀ tag url, getLatestYtDlpRelease fetch isWindows =
        Except.ok (tag, url) →
      ∃ r, fetch = FetchResult.ok r ∧ tag = r.tagName ∧
        ∃ a ∈ r.assets, a.name = releaseAssetName isWindows ∧
          a.browserDownloadURL = url) ∧
    ((∃ e, getLatestYtDlpRelease fetch isWindows = Except.error e) ↔
      fetch = FetchResult.netErr ∨ fetch = FetchResult.parseErr ∨
      ∃ r, fetch = FetchResult.ok r ∧ ∀ a ∈ r.assets,
        a.name ≠ releaseAssetName isWindows) := by
  cases fetch with
  | netErr =>
    refine ⟨fun tag url h => by simp [getLatestYtDlpRelease] at h, ?_⟩
    simp [getLatestYtDlpRelease]
  | parseErr =>
    refine ⟨fun tag url h => by simp [getLatestYtDlpRelease] at h, ?_⟩
    simp [getLatestYtDlpRelease]
  | ok r =>
    cases hfind : r.assets.find?
        (fun a => a.name == releaseAssetName isWindows) with
    | none =>
      have hall := List.find?_eq_none.mp hfind
      constructor
      · intro tag url h
        simp only [getLatestYtDlpRelease, hfind] at h
        exact absurd h (by simp)
      · constructor
        · intro _
          refine Or.inr (Or.inr ⟨r, rfl, fun a ha => ?_⟩)
          have := hall a ha
          simpa using this
        · intro _
          exact ⟨ReleaseErr.assetNotFound, by
            simp [getLatestYtDlpRelease, hfind]⟩
    | some a =>
      have hmem : a ∈ r.assets := List.mem_of_find?_eq_some hfind
      have hname : a.name = releaseAssetName isWindows := by
        have hp := List.find?_some hfind
        simpa using hp
      constructor
      · intro tag url h
        simp only [getLatestYtDlpRelease, hfind, Except.ok.injEq,
          Prod.mk.injEq] at h
        exact ⟨r, rfl, h.1.symm, a, hmem, hname, h.2⟩
      · constructor
        · intro ⟨e, he⟩
          simp [getLatestYtDlpRelease, hfind] at he
        · rintro (h | h | ⟨r2, hr2, hall⟩)
          · exact absurd h (by simp)
          · exact absurd h (by simp)
          · have : r2 = r := by injection hr2.symm
            subst this
            exact absurd hname (hall a hmem)

/-- Witness for C5 at a concrete feed listing the macOS asset. -/
theorem getLatestYtDlpRelease_spec_witness :
    ∃ r, FetchResult.ok
        (Release.mk "2024.02.01".toList
          [Asset.mk "yt-dlp_macos".toList "https://dl".toList]) =
        FetchResult.ok r ∧
      "2024.02.01".toList = r.tagName ∧
      ∃ a ∈ r.assets, a.name = releaseAssetName false ∧
        a.browserDownloadURL = "https://dl".toList :=
  (getLatestYtDlpRelease_spec
    (FetchResult.ok (Release.mk "2024.02.01".toList
      [Asset.mk "yt-dlp_macos".toList "https://dl".toList])) false).1
    "2024.02.01".toList "https://dl".toList (by decide)

/-- C1: when any stage of the cycle fails — the feed request, the metadata
decode or asset lookup, the asset download, the temp-file write, or the
rename — `checkAndUpdate` returns with `ytdlpPath` and `ytdlpVersion`
unchanged, and the loop goes on to process the remaining ticks from that
same unchanged state. -/
theorem checkAndUpdate_failure (env : CycleEnv) (isWindows : Bool)
    (st : ProgState) (envs : List CycleEnv)
    (h : (∃ e, getLatestYtDlpRelease env.fetch isWindows =
            Except.error e) ∨
         (∃ e, downloadYtDlp env.configDir isWindows env.download =
            Except.error e)) :
    (checkAndUpdate env isWindows st).1 = st ∧
    runUpdateCycles isWindows (env :: envs) st =
      runUpdateCycles isWindows envs st := by
  have hmain : (checkAndUpdate env isWindows st).1 = st := by
    unfold checkAndUpdate
    cases hg : getLatestYtDlpRelease env.fetch isWindows with
    | error e => rfl
    | ok p =>
      rcases h with ⟨e, he⟩ | ⟨e, he⟩
      · rw [hg] at he
        exact absurd he (by simp)
      · by_cases hv : st.ytdlpVersion = p.1
        · simp [hv]
        · simp only [he]
          simp [hv]
  refine ⟨hmain, ?_⟩
  simp only [runUpdateCycles, List.foldl_cons, hmain]

/-- Witness for C1: a transport failure of the feed request leaves a
concrete state untouched. -/
theorem checkAndUpdate_failure_witness :
    (checkAndUpdate
        (CycleEnv.mk FetchResult.netErr DownloadOutcome.success
          "cfg".toList)
        false (ProgState.mk "p".toList "2024.01.01".toList)).1 =
      ProgState.mk "p".toList "2024.01.01".toList ∧
    runUpdateCycles false
        [CycleEnv.mk FetchResult.netErr DownloadOutcome.success
          "cfg".toList]
        (ProgState.mk "p".toList "2024.01.01".toList) =
      runUpdateCycles false []
        (ProgState.mk "p".toList "2024.01.01".toList) :=
  checkAndUpdate_failure _ false _ [] (Or.inl ⟨ReleaseErr.network, rfl⟩)

/-- C6: when the release feed reports exactly the currently installed
version, the cycle performs no asset download, no temp-file write and no
rename — its only effect is the feed request — and the state is unchanged;
hence running the cycle twice under the same feed changes nothing. -/
theorem checkAndUpdate_upToDate (env : CycleEnv) (isWindows : Bool)
    (st : ProgState)
    (hver : ∃ url, getLatestYtDlpRelease env.fetch isWindows =
      Except.ok (st.ytdlpVersion, url)) :
    checkAndUpdate env isWindows st = (st, [Effect.fetchReleaseFeed]) ∧
    (checkAndUpdate env isWindows
      (checkAndUpdate env isWindows st).1).1 = st := by
  obtain ⟨url, hu⟩ := hver
  have hmain : checkAndUpdate env isWindows st =
      (st, [Effect.fetchReleaseFeed]) := by
    unfold checkAndUpdate
    rw [hu]
    simp
  refine ⟨hmain, ?_⟩
  rw [hmain]
  rw [hmain]

/-- Witness for C6: a feed reporting the installed version `2024.01.01`
leaves a concrete state untouched with only the feed-request effect. -/
theorem checkAndUpdate_upToDate_witness :
    checkAndUpdate
        (CycleEnv.mk
          (FetchResult.ok (Release.mk "2024.01.01".toList
            [Asset.mk "yt-dlp_macos".toList "https://dl".toList]))
          DownloadOutcome.success "cfg".toList)
        false (ProgState.mk "p".toList "2024.01.01".toList) =
      (ProgState.mk "p".toList "2024.01.01".toList,
        [Effect.fetchReleaseFeed]) :=
  (checkAndUpdate_upToDate _ false _ ⟨"https://dl".toList, by decide⟩).1

/-! ## extractYtDlp and process startup (main.go lines 34-40, 146-187) -/

/-- What `os.Stat` reports for the target path: a file is there, the
not-exist error, or some other error. -/
inductive StatResult where
  | found
  | notFound
  | statError
deriving DecidableEq

/-- The startup environment `extractYtDlp` runs in: what
`os.UserConfigDir` yields (`none` = error, so the temp dir is used), what
`os.Stat` reports, and whether the embedded read and the write succeed. -/
structure ExtractEnv where
  userConfigDir : Option (List Char)
  tempDir : List Char
  stat : StatResult
  readEmbeddedOk : Bool
  writeFileOk : Bool
deriving DecidableEq

/-- Observable effects of `extractYtDlp`. -/
inductive ExtractEffect where
  | mkdirAll
  | statTarget
  | readEmbedded
  | writeFile
deriving DecidableEq

/-- `extractYtDlp` either returns a path or aborts the process via
`log.Fatal`. -/
inductive ExtractResult where
  | fatal
  | path (p : List Char)
deriving DecidableEq

/-- The directory `extractYtDlp` resolves: the per-user config dir, or the
temp dir when `os.UserConfigDir` errors (lines 149-152). -/
def resolvedConfigDir (env : ExtractEnv) : List Char :=
  match env.userConfigDir with
  | some d => d
  | none => env.tempDir

/-- `extractYtDlp` (lines 148-179): resolve the directory, ensure it
exists, and only when `os.Stat` reports the target missing read the
embedded binary and write it out — a failure of either is fatal.  In every
other case the existing target path is returned untouched. -/
def extractYtDlp (env : ExtractEnv) (isWindows : Bool) :
    ExtractResult × List ExtractEffect :=
  let outPath := ytdlpOutPath (resolvedConfigDir env) isWindows
  match env.stat with
  | StatResult.notFound =>
    if env.readEmbeddedOk then
      if env.writeFileOk then
        (ExtractResult.path outPath,
         [.mkdirAll, .statTarget, .readEmbedded, .writeFile])
      else (ExtractResult.fatal,
        [.mkdirAll, .statTarget, .readEmbedded, .writeFile])
    else (ExtractResult.fatal, [.mkdirAll, .statTarget, .readEmbedded])
  | _ => (ExtractResult.path outPath, [.mkdirAll, .statTarget])

/-- C9: when a file already exists at the target path, `extractYtDlp`
returns that path without reading the embedded binary and without writing
any file — so a previously auto-updated binary's contents survive process
restarts — and the fatal startup abort can only happen when no file exists
at the target path. -/
theorem extractYtDlp_frame (env : ExtractEnv) (isWindows : Bool) :
    (env.stat = StatResult.found →
      (extractYtDlp env isWindows).1 =
        ExtractResult.path (ytdlpOutPath (resolvedConfigDir env) isWindows) ∧
      ExtractEffect.readEmbedded ∉ (extractYtDlp env isWindows).2 ∧
      ExtractEffect.writeFile ∉ (extractYtDlp env isWindows).2) ∧
    ((extractYtDlp env isWindows).1 = ExtractResult.fatal →
      env.stat = StatResult.notFound) := by
  constructor
  · intro h
    unfold extractYtDlp
    rw [h]
    exact ⟨rfl, by simp, by simp⟩
  · intro hfatal
    cases hs : env.stat with
    | notFound => rfl
    | found =>
      unfold extractYtDlp at hfatal
      rw [hs] at hfatal
      simp at hfatal
    | statError =>
      unfold extractYtDlp at hfatal
      rw [hs] at hfatal
      simp at hfatal

/-- Witness for C9 at a concrete environment whose target file exists. -/
theorem extractYtDlp_frame_witness :
    (extractYtDlp
        (ExtractEnv.mk (some "cfg".toList) "tmp".toList StatResult.found
          true true) false).1 =
      ExtractResult.path
        (ytdlpOutPath (resolvedConfigDir
          (ExtractEnv.mk (some "cfg".toList) "tmp".toList StatResult.found
            true true)) false) ∧
    ExtractEffect.readEmbedded ∉
      (extractYtDlp
        (ExtractEnv.mk (some "cfg".toList) "tmp".toList StatResult.found
          true true) false).2 ∧
    ExtractEffect.writeFile ∉
      (extractYtDlp
        (ExtractEnv.mk (some "cfg".toList) "tmp".toList StatResult.found
          true true) false).2 :=
  (extractYtDlp_frame
    (ExtractEnv.mk (some "cfg".toList) "tmp".toList StatResult.found
      true true) false).1 rfl

/-- `getYtDlpVersion` (lines 181-187): the trimmed `--version` output, or
"unknown" when the subprocess errors. -/
def getYtDlpVersion (versionOutput : Option (List Char)) : List Char :=
  match versionOutput with
  | none => "unknown".toList
  | some out => trimSpace out

/-- The startup environment of `main` (lines 34-36): the `extractYtDlp`
environment plus what `yt-dlp --version` prints (`none` = subprocess
error). -/
structure InitEnv where
  extract : ExtractEnv
  versionOutput : Option (List Char)
deriving DecidableEq

/-- Lines 34-36 of `main`: the initial `(ytdlpPath, ytdlpVersion)` pair,
or `none` when startup aborts fatally. -/
def initState (env : InitEnv) (isWindows : Bool) : Option ProgState :=
  match (extractYtDlp env.extract isWindows).1 with
  | ExtractResult.fatal => none
  | ExtractResult.path p =>
    some { ytdlpPath := p, ytdlpVersion := getYtDlpVersion env.versionOutput }

/-- Every state of the shared pair the process can reach: the initial
state followed by any finite number of update cycles. -/
def reachableState (env : InitEnv) (isWindows : Bool)
    (envs : List CycleEnv) : Option ProgState :=
  (initState env isWindows).map (runUpdateCycles isWindows envs)

theorem joinPath_ne_nil {a b : List Char} (hb : b ≠ []) :
    joinPath a b ≠ [] := by
  unfold joinPath
  split
  · exact hb
  · simp

theorem ytdlpOutPath_ne_nil (configDir : List Char) (isWindows : Bool) :
    ytdlpOutPath configDir isWindows ≠ [] := by
  apply joinPath_ne_nil
  cases isWindows <;> decide

theorem downloadYtDlp_ok {configDir : List Char} {isWindows : Bool}
    {outcome : DownloadOutcome} {p : List Char}
    (h : downloadYtDlp configDir isWindows outcome = Except.ok p) :
    p = ytdlpOutPath configDir isWindows := by
  cases outcome <;> simp [downloadYtDlp] at h
  exact h.symm

theorem extractYtDlp_path_eq {env : ExtractEnv} {isWindows : Bool}
    {p : List Char}
    (h : (extractYtDlp env isWindows).1 = ExtractResult.path p) :
    p = ytdlpOutPath (resolvedConfigDir env) isWindows := by
  unfold extractYtDlp at h
  cases hs : env.stat <;> rw [hs] at h
  case notFound =>
    cases hr : env.readEmbeddedOk <;> rw [hr] at h
    · simp at h
    · cases hw : env.writeFileOk <;> rw [hw] at h
      · simp at h
      · simp at h
        exact h.symm
  all_goals
    simp at h
    exact h.symm

theorem checkAndUpdate_preserves (env : CycleEnv) (isWindows : Bool)
    (st : ProgState)
    (hst : st.ytdlpPath ≠ [] ∧ st.ytdlpVersion ≠ [])
    (htag : ∀ r, env.fetch = FetchResult.ok r → r.tagName ≠ []) :
    (checkAndUpdate env isWindows st).1.ytdlpPath ≠ [] ∧
    (checkAndUpdate env isWindows st).1.ytdlpVersion ≠ [] := by
  unfold checkAndUpdate
  cases hg : getLatestYtDlpRelease env.fetch isWindows with
  | error e => exact hst
  | ok p =>
    obtain ⟨latest, url⟩ := p
    obtain ⟨r, hr, htagEq, -⟩ :=
      (getLatestYtDlpRelease_spec env.fetch isWindows).1 latest url hg
    have hlatest : latest ≠ [] := by
      rw [htagEq]
      exact htag r hr
    by_cases hv : st.ytdlpVersion = latest
    · simp only [if_pos hv]
      exact hst
    · simp only [if_neg hv]
      cases hd : downloadYtDlp env.configDir isWindows env.download with
      | error e => exact hst
      | ok newPath =>
        refine ⟨?_, hlatest⟩
        rw [downloadYtDlp_ok hd]
        exact ytdlpOutPath_ne_nil _ _

theorem runUpdateCycles_preserves (isWindows : Bool) :
    ∀ (envs : List CycleEnv) (st : ProgState),
    (st.ytdlpPath ≠ [] ∧ st.ytdlpVersion ≠ []) →
    (∀ e ∈ envs, ∀ r, e.fetch = FetchResult.ok r → r.tagName ≠ []) →
    (runUpdateCycles isWindows envs st).ytdlpPath ≠ [] ∧
    (runUpdateCycles isWindows envs st).ytdlpVersion ≠ [] := by
  intro envs
  induction envs with
  | nil =>
    intro st hst _
    exact hst
  | cons e es ih =>
    intro st hst htags
    have hstep := checkAndUpdate_preserves e isWindows st hst
      (htags e (List.mem_cons_self e es))
    have := ih (checkAndUpdate e isWindows st).1 hstep
      (fun e2 he2 => htags e2 (List.mem_cons_of_mem _ he2))
    simpa [runUpdateCycles] using this

/-- C2 (amended): assuming the initial version probe yields a non-empty
string and every decoded release tag is non-empty, every reachable state
of the process pairs a non-empty `ytdlpPath` with a non-empty
`ytdlpVersion`; and whenever a cycle completes an install of a downloaded
path, the state it leaves — the one every subsequent locked read
observes — carries exactly that newly installed path. -/
theorem reachableState_invariant (ienv : InitEnv) (isWindows : Bool)
    (envs : List CycleEnv) (st : ProgState)
    (hver : getYtDlpVersion ienv.versionOutput ≠ [])
    (htags : ∀ e ∈ envs, ∀ r, e.fetch = FetchResult.ok r → r.tagName ≠ [])
    (hreach : reachableState ienv isWindows envs = some st) :
    (st.ytdlpPath ≠ [] ∧ st.ytdlpVersion ≠ []) ∧
    (∀ (e : CycleEnv) (s : ProgState) (latest url newPath : List Char),
      getLatestYtDlpRelease e.fetch isWindows = Except.ok (latest, url) →
      s.ytdlpVersion ≠ latest →
      downloadYtDlp e.configDir isWindows e.download = Except.ok newPath →
      (checkAndUpdate e isWindows s).1.ytdlpPath = newPath) := by
  constructor
  · simp only [reachableState, Option.map_eq_some'] at hreach
    obtain ⟨st0, hinit, hrun⟩ := hreach
    have hst0 : st0.ytdlpPath ≠ [] ∧ st0.ytdlpVersion ≠ [] := by
      simp only [initState] at hinit
      cases hx : (extractYtDlp ienv.extract isWindows).1 with
      | fatal =>
        rw [hx] at hinit
        simp at hinit
      | path p =>
        rw [hx] at hinit
        simp only [Option.some_inj] at hinit
        rw [← hinit]
        refine ⟨?_, hver⟩
        rw [extractYtDlp_path_eq hx]
        exact ytdlpOutPath_ne_nil _ _
    rw [← hrun]
    exact runUpdateCycles_preserves isWindows envs st0 hst0 htags
  · intro e s latest url newPath hlatest hne hdl
    unfold checkAndUpdate
    rw [hlatest]
    simp only [if_neg hne, hdl]

/-- Witness for the amended C2 at a concrete startup and one concrete
update cycle that installs version 2024.02.01. -/
theorem reachableState_invariant_witness :
    (ProgState.mk "cfg/tatatext-helper/yt-dlp".toList
        "2024.02.01".toList).ytdlpPath ≠ [] ∧
    (ProgState.mk "cfg/tatatext-helper/yt-dlp".toList
        "2024.02.01".toList).ytdlpVersion ≠ [] :=
  (reachableState_invariant
    (InitEnv.mk
      (ExtractEnv.mk (some "cfg".toList) "tmp".toList StatResult.found
        true true)
      (some "2024.01.01".toList))
    false
    [CycleEnv.mk
      (FetchResult.ok (Release.mk "2024.02.01".toList
        [Asset.mk "yt-dlp_macos".toList "https://dl".toList]))
      DownloadOutcome.success "cfg".toList]
    (ProgState.mk "cfg/tatatext-helper/yt-dlp".toList "2024.02.01".toList)
    (by decide)
    (by
      intro e he r hr
      simp only [List.mem_singleton] at he
      subst he
      simp only at hr
      injection hr with h2
      rw [← h2]
      decide)
    (by decide)).1

/-- C2 counterexample: with a decodable release feed whose `tag_name` is
empty (but whose asset list is intact), an update cycle installs the empty
string as `ytdlpVersion` while `ytdlpPath` is non-empty — a reachable
state with a non-empty path and an empty version, refuting the unqualified
invariant. -/
theorem reachableState_empty_version_counterexample :
    reachableState
        (InitEnv.mk
          (ExtractEnv.mk (some "cfg".toList) "tmp".toList StatResult.found
            true true)
          (some "2024.01.01".toList))
        false
        [CycleEnv.mk
          (FetchResult.ok (Release.mk []
            [Asset.mk "yt-dlp_macos".toList "https://dl".toList]))
          DownloadOutcome.success "cfg".toList] =
      some (ProgState.mk "cfg/tatatext-helper/yt-dlp".toList []) ∧
    "cfg/tatatext-helper/yt-dlp".toList ≠ [] := by
  decide

/-! ## The updateMu locking discipline (claim C8)

A fine-grained interleaving model: each access to `ytdlpPath`,
`ytdlpVersion` or the mutex is one atomic machine step, and the mutex is
only a blocking token — nothing in the semantics forces writes or reads to
hold it.  The discipline lives in the thread programs, which are exactly
the `updateMu` sections the source contains: the read sections of /ping
(lines 48-50), /audio (lines 75-77) and `checkAndUpdate` (lines 207-209),
and the install section writing path then version (lines 223-226). -/

/-- One atomic access to the mutex or to one shared variable. -/
inductive Op where
  | lock
  | unlock
  | writePath (p : List Char)
  | writeVersion (v : List Char)
  | readPath
  | readVersion
deriving DecidableEq

/-- A completed read, recorded with the reading thread's id. -/
inductive Obs where
  | obsPath (tid : Nat) (p : List Char)
  | obsVersion (tid : Nat) (v : List Char)
deriving DecidableEq

/-- The shared memory: the two package-level variables and the mutex
holder. -/
structure Shared where
  path : List Char
  version : List Char
  lockedBy : Option Nat
deriving DecidableEq

/-- A configuration: shared memory, each thread's remaining program, and
the log of completed reads. -/
structure Conf where
  shared : Shared
  threads : List (List Op)
  log : List Obs
deriving DecidableEq

/-- Interleaving semantics: any thread may take its next step; `lock`
blocks until the mutex is free, `unlock` requires ownership, and variable
accesses are single atomic steps that need no lock. -/
inductive Step : Conf → Conf → Prop where
  | lock (c : Conf) (i : Nat) (rest : List Op)
      (hth : c.threads[i]? = some (Op.lock :: rest))
      (hfree : c.shared.lockedBy = none) :
      Step c ⟨⟨c.shared.path, c.shared.version, some i⟩,
        c.threads.set i rest, c.log⟩
  | unlock (c : Conf) (i : Nat) (rest : List Op)
      (hth : c.threads[i]? = some (Op.unlock :: rest))
      (hown : c.shared.lockedBy = some i) :
      Step c ⟨⟨c.shared.path, c.shared.version, none⟩,
        c.threads.set i rest, c.log⟩
  | writePath (c : Conf) (i : Nat) (np : List Char) (rest : List Op)
      (hth : c.threads[i]? = some (Op.writePath np :: rest)) :
      Step c ⟨⟨np, c.shared.version, c.shared.lockedBy⟩,
        c.threads.set i rest, c.log⟩
  | writeVersion (c : Conf) (i : Nat) (nv : List Char) (rest : List Op)
      (hth : c.threads[i]? = some (Op.writeVersion nv :: rest)) :
      Step c ⟨⟨c.shared.path, nv, c.shared.lockedBy⟩,
        c.threads.set i rest, c.log⟩
  | readPath (c : Conf) (i : Nat) (rest : List Op)
      (hth : c.threads[i]? = some (Op.readPath :: rest)) :
      Step c ⟨c.shared, c.threads.set i rest,
        Obs.obsPath i c.shared.path :: c.log⟩
  | readVersion (c : Conf) (i : Nat) (rest : List Op)
      (hth : c.threads[i]? = some (Op.readVersion :: rest)) :
      Step c ⟨c.shared, c.threads.set i rest,
        Obs.obsVersion i c.shared.version :: c.log⟩

/-- The programs the source runs: any concatenation of its `updateMu`
sections — a locked read of the path (/audio), a locked read of the
version (/ping, `checkAndUpdate`'s comparison), or a locked install
writing a path and a version that form one of the allowed install pairs
`A`. -/
inductive WFProg (A : List (List Char × List Char)) : List Op → Prop where
  | nil : WFProg A []
  | readP {k : List Op} (hk : WFProg A k) :
      WFProg A (Op.lock :: Op.readPath :: Op.unlock :: k)
  | readV {k : List Op} (hk : WFProg A k) :
      WFProg A (Op.lock :: Op.readVersion :: Op.unlock :: k)
  | install {p v : List Char} {k : List Op} (hpv : (p, v) ∈ A)
      (hk : WFProg A k) :
      WFProg A (Op.lock :: Op.writePath p :: Op.writeVersion v ::
        Op.unlock :: k)

/-- A read observation is of a component of the initial pair or of a
single install's full pair. -/
def obsOK (A : List (List Char × List Char)) (p0 v0 : List Char) :
    Obs → Prop
  | Obs.obsPath _ p => ∃ pr ∈ (p0, v0) :: A, pr.1 = p
  | Obs.obsVersion _ v => ∃ pr ∈ (p0, v0) :: A, pr.2 = v

/-- The possible remainders of a section whose `lock` was taken, together
with what they guarantee about the shared pair: between the two install
writes the pair is torn — but only the lock holder is here. -/
inductive MidSection (A : List (List Char × List Char))
    (p0 v0 : List Char) : List Char → List Char → List Op → Prop where
  | readP {p v : List Char} {k : List Op}
      (hg : (p, v) ∈ (p0, v0) :: A) (hk : WFProg A k) :
      MidSection A p0 v0 p v (Op.readPath :: Op.unlock :: k)
  | readV {p v : List Char} {k : List Op}
      (hg : (p, v) ∈ (p0, v0) :: A) (hk : WFProg A k) :
      MidSection A p0 v0 p v (Op.readVersion :: Op.unlock :: k)
  | install2 {p v np nv : List Char} {k : List Op} (hpv : (np, nv) ∈ A)
      (hg : (p, v) ∈ (p0, v0) :: A) (hk : WFProg A k) :
      MidSection A p0 v0 p v
        (Op.writePath np :: Op.writeVersion nv :: Op.unlock :: k)
  | install1 {p v nv : List Char} {k : List Op} (hv : (p, nv) ∈ A)
      (hk : WFProg A k) :
      MidSection A p0 v0 p v (Op.writeVersion nv :: Op.unlock :: k)
  | preUnlock {p v : List Char} {k : List Op}
      (hg : (p, v) ∈ (p0, v0) :: A) (hk : WFProg A k) :
      MidSection A p0 v0 p v (Op.unlock :: k)

/-- The per-lock-state part of the invariant: with the mutex free all
threads sit at section boundaries and the pair is whole; with a holder,
everyone else sits at a boundary and the holder is mid-section. -/
def lockInv (A : List (List Char × List Char)) (p0 v0 : List Char)
    (sh : Shared) (ths : List (List Op)) : Option Nat → Prop
  | none =>
    (∀ (j : Nat) (t : List Op), ths[j]? = some t → WFProg A t) ∧
    (sh.path, sh.version) ∈ (p0, v0) :: A
  | some i =>
    (∀ (j : Nat) (t : List Op), j ≠ i → ths[j]? = some t → WFProg A t) ∧
    ∃ t, ths[i]? = some t ∧ MidSection A p0 v0 sh.path sh.version t

/-- The inductive invariant of the interleaving system. -/
def SysInv (A : List (List Char × List Char)) (p0 v0 : List Char)
    (c : Conf) : Prop :=
  (∀ o ∈ c.log, obsOK A p0 v0 o) ∧
  lockInv A p0 v0 c.shared c.threads c.shared.lockedBy

theorem getElem?_some_lt {α : Type} {l : List α} {i : Nat} {a : α}
    (h : l[i]? = some a) : i < l.length := by
  by_contra hlt
  rw [List.getElem?_eq_none (by omega)] at h
  exact Option.noConfusion h

theorem sysInv_step {A : List (List Char × List Char)} {p0 v0 : List Char}
    {c c2 : Conf} (hinv : SysInv A p0 v0 c) (hstep : Step c c2) :
    SysInv A p0 v0 c2 := by
  obtain ⟨hlog, hli⟩ := hinv
  cases hstep with
  | lock i rest hth hfree =>
    rw [hfree] at hli
    simp only [lockInv] at hli
    obtain ⟨hwf, hg⟩ := hli
    have hwfi := hwf i _ hth
    refine ⟨hlog, ?_⟩
    simp only [SysInv, lockInv]
    constructor
    · intro j t hj hjt
      rw [List.getElem?_set_ne (Ne.symm hj)] at hjt
      exact hwf j t hjt
    · refine ⟨rest, ?_, ?_⟩
      · rw [List.getElem?_set_self (getElem?_some_lt hth)]
      · cases hwfi with
        | readP hk => exact MidSection.readP hg hk
        | readV hk => exact MidSection.readV hg hk
        | install hpv hk => exact MidSection.install2 hpv hg hk
  | unlock i rest hth hown =>
    rw [hown] at hli
    simp only [lockInv] at hli
    obtain ⟨hother, t, hti, hmid⟩ := hli
    rw [hth] at hti
    injection hti with hti
    subst hti
    cases hmid with
    | preUnlock hg hk =>
      refine ⟨hlog, ?_⟩
      simp only [lockInv]
      constructor
      · intro j t2 hjt
        by_cases hij : j = i
        · subst hij
          rw [List.getElem?_set_self (getElem?_some_lt hth)] at hjt
          injection hjt with hjt
          rw [← hjt]
          exact hk
        · rw [List.getElem?_set_ne (fun he => hij he.symm)] at hjt
          exact hother j t2 hij hjt
      · exact hg
  | writePath i np rest hth =>
    cases hL : c.shared.lockedBy with
    | none =>
      rw [hL] at hli
      simp only [lockInv] at hli
      have := hli.1 i _ hth
      cases this
    | some j =>
      rw [hL] at hli
      simp only [lockInv] at hli
      obtain ⟨hother, t, htj, hmid⟩ := hli
      by_cases hij : i = j
      · subst hij
        rw [hth] at htj
        injection htj with htj
        subst htj
        cases hmid with
        | install2 hpv hg hk =>
          refine ⟨hlog, ?_⟩
          simp only [SysInv, lockInv]
          constructor
          · intro j2 t2 hj2 hjt
            rw [List.getElem?_set_ne (Ne.symm hj2)] at hjt
            exact hother j2 t2 hj2 hjt
          · refine ⟨_, List.getElem?_set_self (getElem?_some_lt hth), ?_⟩
            exact MidSection.install1 hpv hk
      · have := hother i _ hij hth
        cases this
  | writeVersion i nv rest hth =>
    cases hL : c.shared.lockedBy with
    | none =>
      rw [hL] at hli
      simp only [lockInv] at hli
      have := hli.1 i _ hth
      cases this
    | some j =>
      rw [hL] at hli
      simp only [lockInv] at hli
      obtain ⟨hother, t, htj, hmid⟩ := hli
      by_cases hij : i = j
      · subst hij
        rw [hth] at htj
        injection htj with htj
        subst htj
        cases hmid with
        | install1 hv hk =>
          refine ⟨hlog, ?_⟩
          simp only [SysInv, lockInv]
          constructor
          · intro j2 t2 hj2 hjt
            rw [List.getElem?_set_ne (Ne.symm hj2)] at hjt
            exact hother j2 t2 hj2 hjt
          · refine ⟨_, List.getElem?_set_self (getElem?_some_lt hth), ?_⟩
            exact MidSection.preUnlock (List.mem_cons_of_mem _ hv) hk
      · have := hother i _ hij hth
        cases this
  | readPath i rest hth =>
    cases hL : c.shared.lockedBy with
    | none =>
      rw [hL] at hli
      simp only [lockInv] at hli
      have := hli.1 i _ hth
      cases this
    | some j =>
      rw [hL] at hli
      simp only [lockInv] at hli
      obtain ⟨hother, t, htj, hmid⟩ := hli
      by_cases hij : i = j
      · subst hij
        rw [hth] at htj
        injection htj with htj
        subst htj
        cases hmid with
        | readP hg hk =>
          constructor
          · intro o ho
            cases ho with
            | head =>
              exact ⟨(c.shared.path, c.shared.version), hg, rfl⟩
            | tail _ hmem => exact hlog o hmem
          · rw [hL]
            simp only [lockInv]
            constructor
            · intro j2 t2 hj2 hjt
              rw [List.getElem?_set_ne (Ne.symm hj2)] at hjt
              exact hother j2 t2 hj2 hjt
            · refine ⟨_, List.getElem?_set_self (getElem?_some_lt hth), ?_⟩
              exact MidSection.preUnlock hg hk
      · have := hother i _ hij hth
        cases this
  | readVersion i rest hth =>
    cases hL : c.shared.lockedBy with
    | none =>
      rw [hL] at hli
      simp only [lockInv] at hli
      have := hli.1 i _ hth
      cases this
    | some j =>
      rw [hL] at hli
      simp only [lockInv] at hli
      obtain ⟨hother, t, htj, hmid⟩ := hli
      by_cases hij : i = j
      · subst hij
        rw [hth] at htj
        injection htj with htj
        subst htj
        cases hmid with
        | readV hg hk =>
          constructor
          · intro o ho
            cases ho with
            | head =>
              exact ⟨(c.shared.path, c.shared.version), hg, rfl⟩
            | tail _ hmem => exact hlog o hmem
          · rw [hL]
            simp only [lockInv]
            constructor
            · intro j2 t2 hj2 hjt
              rw [List.getElem?_set_ne (Ne.symm hj2)] at hjt
              exact hother j2 t2 hj2 hjt
            · refine ⟨_, List.getElem?_set_self (getElem?_some_lt hth), ?_⟩
              exact MidSection.preUnlock hg hk
      · have := hother i _ hij hth
        cases this

theorem sysInv_init (A : List (List Char × List Char)) (p0 v0 : List Char)
    (threads : List (List Op)) (hwf : ∀ t ∈ threads, WFProg A t) :
    SysInv A p0 v0 ⟨⟨p0, v0, none⟩, threads, []⟩ := by
  refine ⟨by simp, ?_⟩
  simp only [SysInv, lockInv]
  exact ⟨fun j t hjt => hwf t (List.getElem?_mem hjt),
    List.mem_cons_self _ _⟩

theorem sysInv_reachable {A : List (List Char × List Char)}
    {p0 v0 : List Char} {c0 c : Conf}
    (hreach : Relation.ReflTransGen Step c0 c)
    (h0 : SysInv A p0 v0 c0) : SysInv A p0 v0 c := by
  induction hreach with
  | refl => exact h0
  | tail _ hstep ih => exact sysInv_step ih hstep

/-- C8: with every access to the shared pair inside one of the source's
`updateMu` sections — /ping's and /audio's locked reads and
`checkAndUpdate`'s locked compare and locked two-write install — any
interleaving of any number of such threads is linearized by the single
mutex: every completed read observes a component of the initial pair or of
the full pair written by a single install, and whenever the mutex is free
the shared pair itself is the initial pair or one fully written by a
single completed install — never a torn mixture. -/
theorem mutex_discipline (A : List (List Char × List Char))
    (p0 v0 : List Char) (threads : List (List Op)) (c : Conf)
    (hwf : ∀ t ∈ threads, WFProg A t)
    (hreach : Relation.ReflTransGen Step
      ⟨⟨p0, v0, none⟩, threads, []⟩ c) :
    (∀ o ∈ c.log, obsOK A p0 v0 o) ∧
    (c.shared.lockedBy = none →
      (c.shared.path, c.shared.version) ∈ (p0, v0) :: A) := by
  have hinv := sysInv_reachable hreach (sysInv_init A p0 v0 threads hwf)
  obtain ⟨hlog, hli⟩ := hinv
  refine ⟨hlog, fun hfree => ?_⟩
  rw [hfree] at hli
  simp only [lockInv] at hli
  exact hli.2

/-- Witness for C8: one installer thread and one reader thread, run to
completion in a concrete interleaving; the reader's logged observation is
of the installed path, never a torn value. -/
theorem mutex_discipline_witness :
    obsOK [("newP".toList, "newV".toList)] "p0".toList "v0".toList
      (Obs.obsPath 1 "newP".toList) := by
  have s1 : Step
      ⟨⟨"p0".toList, "v0".toList, none⟩,
       [[Op.lock, Op.writePath "newP".toList,
         Op.writeVersion "newV".toList, Op.unlock],
        [Op.lock, Op.readPath, Op.unlock]], []⟩
      ⟨⟨"p0".toList, "v0".toList, some 0⟩,
       [[Op.writePath "newP".toList, Op.writeVersion "newV".toList,
         Op.unlock],
        [Op.lock, Op.readPath, Op.unlock]], []⟩ :=
    Step.lock _ 0 _ rfl rfl
  have s2 : Step
      ⟨⟨"p0".toList, "v0".toList, some 0⟩,
       [[Op.writePath "newP".toList, Op.writeVersion "newV".toList,
         Op.unlock],
        [Op.lock, Op.readPath, Op.unlock]], []⟩
      ⟨⟨"newP".toList, "v0".toList, some 0⟩,
       [[Op.writeVersion "newV".toList, Op.unlock],
        [Op.lock, Op.readPath, Op.unlock]], []⟩ :=
    Step.writePath _ 0 "newP".toList _ rfl
  have s3 : Step
      ⟨⟨"newP".toList, "v0".toList, some 0⟩,
       [[Op.writeVersion "newV".toList, Op.unlock],
        [Op.lock, Op.readPath, Op.unlock]], []⟩
      ⟨⟨"newP".toList, "newV".toList, some 0⟩,
       [[Op.unlock], [Op.lock, Op.readPath, Op.unlock]], []⟩ :=
    Step.writeVersion _ 0 "newV".toList _ rfl
  have s4 : Step
      ⟨⟨"newP".toList, "newV".toList, some 0⟩,
       [[Op.unlock], [Op.lock, Op.readPath, Op.unlock]], []⟩
      ⟨⟨"newP".toList, "newV".toList, none⟩,
       [[], [Op.lock, Op.readPath, Op.unlock]], []⟩ :=
    Step.unlock _ 0 _ rfl rfl
  have s5 : Step
      ⟨⟨"newP".toList, "newV".toList, none⟩,
       [[], [Op.lock, Op.readPath, Op.unlock]], []⟩
      ⟨⟨"newP".toList, "newV".toList, some 1⟩,
       [[], [Op.readPath, Op.unlock]], []⟩ :=
    Step.lock _ 1 _ rfl rfl
  have s6 : Step
      ⟨⟨"newP".toList, "newV".toList, some 1⟩,
       [[], [Op.readPath, Op.unlock]], []⟩
      ⟨⟨"newP".toList, "newV".toList, some 1⟩, [[], [Op.unlock]],
       [Obs.obsPath 1 "newP".toList]⟩ :=
    Step.readPath _ 1 _ rfl
  have s7 : Step
      ⟨⟨"newP".toList, "newV".toList, some 1⟩, [[], [Op.unlock]],
       [Obs.obsPath 1 "newP".toList]⟩
      ⟨⟨"newP".toList, "newV".toList, none⟩, [[], []],
       [Obs.obsPath 1 "newP".toList]⟩ :=
    Step.unlock _ 1 _ rfl rfl
  have hreach : Relation.ReflTransGen Step
      ⟨⟨"p0".toList, "v0".toList, none⟩,
       [[Op.lock, Op.writePath "newP".toList,
         Op.writeVersion "newV".toList, Op.unlock],
        [Op.lock, Op.readPath, Op.unlock]], []⟩
      ⟨⟨"newP".toList, "newV".toList, none⟩, [[], []],
       [Obs.obsPath 1 "newP".toList]⟩ :=
    Relation.ReflTransGen.head s1 (Relation.ReflTransGen.head s2
      (Relation.ReflTransGen.head s3 (Relation.ReflTransGen.head s4
        (Relation.ReflTransGen.head s5 (Relation.ReflTransGen.head s6
          (Relation.ReflTransGen.head s7 Relation.ReflTransGen.refl))))))
  have hwf : ∀ t ∈ [[Op.lock, Op.writePath "newP".toList,
      Op.writeVersion "newV".toList, Op.unlock],
      [Op.lock, Op.readPath, Op.unlock]],
      WFProg [("newP".toList, "newV".toList)] t := by
    intro t ht
    simp only [List.mem_cons, List.not_mem_nil, or_false] at ht
    rcases ht with h | h
    · rw [h]
      exact WFProg.install (List.mem_singleton.mpr rfl) WFProg.nil
    · rw [h]
      exact WFProg.readP WFProg.nil
  exact (mutex_discipline [("newP".toList, "newV".toList)]
    "p0".toList "v0".toList _ _ hwf hreach).1
    (Obs.obsPath 1 "newP".toList) (List.mem_singleton.mpr rfl)
